import Mathlib

/-!
Verification of the patch application engine of the repository
(`src/opencode/patch/index.py`, with a near-duplicate in
`src/opencode/tool/apply_patch.py`).  Python strings are modelled as
their character lists (`Str`), so that splitting and joining on
newlines are fully executable and provable.  Each definition mirrors
the corresponding Python function; divergences between the two copies
of the engine are noted in the doc comments.
-/

/-- Python strings are modelled as lists of characters. -/
abbrev Str := List Char

namespace Opencode

/-- Whitespace recognised by Python `str.strip` / `str.rstrip`
(ASCII whitespace plus the Unicode space characters). -/
def isPyWhitespace (c : Char) : Bool :=
  c.val = 0x09 || c.val = 0x0a || c.val = 0x0b || c.val = 0x0c ||
  c.val = 0x0d || c.val = 0x20 ||
  (0x1c ≤ c.val && c.val ≤ 0x1f) || c.val = 0x85 || c.val = 0xa0 ||
  c.val = 0x1680 || (0x2000 ≤ c.val && c.val ≤ 0x200a) ||
  c.val = 0x2028 || c.val = 0x2029 || c.val = 0x202f ||
  c.val = 0x205f || c.val = 0x3000

/-- Python `str.rstrip()`: drop trailing whitespace. -/
def pyRstrip (s : Str) : Str :=
  (s.reverse.dropWhile isPyWhitespace).reverse

/-- Python `str.strip()`: drop leading and trailing whitespace. -/
def pyStripChars (s : Str) : Str :=
  pyRstrip (s.dropWhile isPyWhitespace)

/-- Prepend a character to the first chunk of a split (the split of a
suffix is never empty, so the first branch is unreachable). -/
def consHead (c : Char) : List Str → List Str
  | [] => [[c]]
  | h :: t => (c :: h) :: t

/-- Python `text.split("\n")`: always returns one more chunk than there
are newline characters; `""` splits to `[""]`. -/
def splitNl : Str → List Str
  | [] => [[]]
  | c :: rest =>
    if c = '\n' then [] :: splitNl rest else consHead c (splitNl rest)

/-- Python `"\n".join(lines)`. -/
def joinNl : List Str → Str
  | [] => []
  | [l] => l
  | l :: ls => l ++ '\n' :: joinNl ls

/-- `_normalize_unicode` from `src/opencode/patch/index.py` (identical
to `normalize_unicode` in the tool copy): maps typographic quotes,
dashes, the ellipsis and the non-breaking space to ASCII.  The chained
`str.replace` calls are single-character patterns whose replacements
contain none of the other patterns, so they are equivalent to one
character-by-character pass. -/
def normalizeUnicode (s : Str) : Str :=
  s.flatMap fun c =>
    if c.val = 0x2018 || c.val = 0x2019 || c.val = 0x201A || c.val = 0x201B then
      [Char.ofNat 39]
    else if c.val = 0x201C || c.val = 0x201D || c.val = 0x201E || c.val = 0x201F then
      [Char.ofNat 34]
    else if 0x2010 ≤ c.val && c.val ≤ 0x2015 then ['-']
    else if c.val = 0x2026 then ['.', '.', '.']
    else if c.val = 0xA0 then [' ']
    else [c]

/-! ### The sequence locator (`_seek_sequence` / `seek_sequence`) -/

/-- Whether `pattern` matches `lines` starting at offset `i` under
comparison `cmp`.  The callers only evaluate this at in-range offsets,
where the `getD` defaults are never used (mirroring Python's direct
indexing). -/
def matchesAt (cmp : Str → Str → Bool) (lines pattern : List Str) (i : Nat) : Bool :=
  (List.range pattern.length).all fun j => cmp (lines.getD (i + j) []) (pattern.getD j [])

/-- The end-of-file anchored attempt at the top of `try_match`: the
offset `len(lines) - len(pattern)` (computed over the integers, as in
Python) is tried alone, provided it is not below `startIndex`. -/
def tryMatchEofHit (cmp : Str → Str → Bool) (lines pattern : List Str)
    (startIndex : Nat) : Option Int :=
  let fromEnd : Int := (lines.length : Int) - (pattern.length : Int)
  if (startIndex : Int) ≤ fromEnd then
    if matchesAt cmp lines pattern fromEnd.toNat then some fromEnd else none
  else none

/-- The forward scan of `try_match`: Python
`range(start_index, len(lines) - len(pattern) + 1)`, whose length is
the truncated difference used here; the first matching offset wins,
`-1` on failure. -/
def tryMatchScan (cmp : Str → Str → Bool) (lines pattern : List Str)
    (startIndex : Nat) : Int :=
  match (List.range ((lines.length + 1 - pattern.length) - startIndex)).find?
      (fun k => matchesAt cmp lines pattern (startIndex + k)) with
  | some k => ((startIndex + k : Nat) : Int)
  | none => -1

/-- One comparison pass of `_seek_sequence` (`try_match` in the
source): when `eof` is set, first try the offset that aligns the
pattern with the end of the file, then scan forward from
`startIndex`.  Returns `-1` on failure, as the source does. -/
def tryMatch (cmp : Str → Str → Bool) (lines pattern : List Str)
    (startIndex : Nat) (eof : Bool) : Int :=
  match (if eof then tryMatchEofHit cmp lines pattern startIndex else none) with
  | some v => v
  | none => tryMatchScan cmp lines pattern startIndex

/-- Pass 1 comparison: strict equality. -/
def cmpExact (a b : Str) : Bool := a == b

/-- Pass 2 comparison: trailing whitespace stripped from both sides. -/
def cmpRstrip (a b : Str) : Bool := pyRstrip a == pyRstrip b

/-- Pass 3 comparison: both sides fully stripped. -/
def cmpStrip (a b : Str) : Bool := pyStripChars a == pyStripChars b

/-- Pass 4 comparison: unicode-normalised after stripping. -/
def cmpNorm (a b : Str) : Bool :=
  normalizeUnicode (pyStripChars a) == normalizeUnicode (pyStripChars b)

/-- `_seek_sequence` from `src/opencode/patch/index.py` (identical to
`seek_sequence` in the tool copy): four comparison passes, in order
exact, rstrip, strip, unicode-normalised-after-strip; empty patterns
never match. -/
def seekSequence (lines pattern : List Str) (startIndex : Nat) (eof : Bool) : Int :=
  if pattern.isEmpty then -1
  else
    let exact := tryMatch cmpExact lines pattern startIndex eof
    if exact ≠ -1 then exact
    else
      let rstripped := tryMatch cmpRstrip lines pattern startIndex eof
      if rstripped ≠ -1 then rstripped
      else
        let trimmed := tryMatch cmpStrip lines pattern startIndex eof
        if trimmed ≠ -1 then trimmed
        else tryMatch cmpNorm lines pattern startIndex eof

/-! ### Data model -/

/-- `UpdateFileChunk` from `src/opencode/patch/index.py` (the tool copy
uses a dict with keys `old_lines`, `new_lines`, `context`, `is_eof`). -/
structure UpdateFileChunk where
  old_lines : List Str := []
  new_lines : List Str := []
  change_context : Option Str := none
  is_end_of_file : Bool := false
deriving DecidableEq

/-- The `Hunk` union (`HunkAdd` / `HunkDelete` / `HunkUpdate`). -/
inductive Hunk where
  | add (path : Str) (contents : Str)
  | delete (path : Str)
  | update (path : Str) (move_path : Option Str) (chunks : List UpdateFileChunk)
deriving DecidableEq

/-- One `(start_index, old_length, new_lines)` tuple computed by
`_compute_replacements`. -/
structure Replacement where
  start_index : Nat
  old_length : Nat
  new_lines : List Str
deriving DecidableEq

/-- `AffectedPaths` from `src/opencode/patch/index.py`. -/
structure AffectedPaths where
  added : List Str := []
  modified : List Str := []
  deleted : List Str := []
deriving DecidableEq

/-- Result of `derive_new_contents_from_chunks` (a dict with keys
`unified_diff` and `content` in the source). -/
structure FileUpdate where
  unified_diff : Str
  content : Str
deriving DecidableEq

/-! ### The replacement engine -/

/-- The insertion index used for a pure-insertion chunk in
`_compute_replacements` (`src/opencode/patch/index.py` line 291, same
expression in the tool copy line 239): the line count, or one less
when the last line is the empty trailing sentinel.  It does not depend
on the search cursor. -/
def insertionIndexOf (originalLines : List Str) : Nat :=
  if originalLines ≠ [] ∧ originalLines.getLast? = some [] then
    originalLines.length - 1
  else originalLines.length

/-- The context step at the top of the chunk loop of
`_compute_replacements`: when a context is present and non-empty
(Python truthiness, `if chunk.change_context:`), locate it as a
single-line pattern from the cursor and move the cursor just past it;
a context that cannot be located is an error. -/
def contextCursor (originalLines : List Str) (filePath : Str)
    (changeContext : Option Str) (lineIndex : Nat) : Except Str Nat :=
  match changeContext with
  | some ctx =>
    if ctx = [] then .ok lineIndex
    else
      let contextIdx := seekSequence originalLines [ctx] lineIndex false
      if contextIdx = -1 then
        .error ("Failed to find context in ".toList ++ filePath)
      else .ok (contextIdx.toNat + 1)
  | none => .ok lineIndex

/-- The location step for a chunk with non-empty `old_lines`
(`_compute_replacements` lines 295-303): seek the pattern from the
cursor; when that fails and the pattern ends with an empty line, strip
that line from the pattern (and from the new lines when they also end
empty) and seek once more.  Returns the pattern searched, the new
slice to splice in, and the found offset (`-1` on failure). -/
def locateChunk (originalLines : List Str) (chunk : UpdateFileChunk)
    (lineIndex1 : Nat) : List Str × List Str × Int :=
  if seekSequence originalLines chunk.old_lines lineIndex1 chunk.is_end_of_file = -1 ∧
      chunk.old_lines ≠ [] ∧ chunk.old_lines.getLast? = some [] then
    (chunk.old_lines.dropLast,
      if chunk.new_lines ≠ [] ∧ chunk.new_lines.getLast? = some [] then
        chunk.new_lines.dropLast
      else chunk.new_lines,
      seekSequence originalLines chunk.old_lines.dropLast lineIndex1 chunk.is_end_of_file)
  else (chunk.old_lines, chunk.new_lines,
    seekSequence originalLines chunk.old_lines lineIndex1 chunk.is_end_of_file)

/-- The chunk loop of `_compute_replacements` (identical logic inlined
in `apply_chunks_to_content` of the tool copy): per chunk, optionally
relocate the cursor via the context line, emit an end-of-file
insertion when `old_lines` is empty, otherwise locate `old_lines`
(retrying once with a trailing empty line stripped from both sides)
and advance the cursor past the match.  `filePath` only feeds the
error messages. -/
def computeRepsAux (originalLines : List Str) (filePath : Str) :
    List UpdateFileChunk → Nat → Except Str (List Replacement)
  | [], _ => .ok []
  | chunk :: rest, lineIndex =>
    match contextCursor originalLines filePath chunk.change_context lineIndex with
    | .error e => .error e
    | .ok lineIndex1 =>
      if chunk.old_lines = [] then
        match computeRepsAux originalLines filePath rest lineIndex1 with
        | .error e => .error e
        | .ok reps =>
          .ok (⟨insertionIndexOf originalLines, 0, chunk.new_lines⟩ :: reps)
      else
        match locateChunk originalLines chunk lineIndex1 with
        | (pattern, newSlice, found) =>
          if found ≠ -1 then
            match computeRepsAux originalLines filePath rest (found.toNat + pattern.length) with
            | .error e => .error e
            | .ok reps => .ok (⟨found.toNat, pattern.length, newSlice⟩ :: reps)
          else
            .error ("Failed to find expected lines in ".toList ++ filePath)

/-- Ordering used by the defensive final sort of `_compute_replacements`
(Python `replacements.sort(key=lambda x: x[0])`, a stable sort by start
index, modelled by insertion sort which is stable for this total
preorder). -/
def repLE (a b : Replacement) : Prop := a.start_index ≤ b.start_index

instance : DecidableRel repLE := fun a b => Nat.decLe a.start_index b.start_index

instance : IsTotal Replacement repLE :=
  ⟨fun a b => Nat.le_total a.start_index b.start_index⟩

instance : IsTrans Replacement repLE :=
  ⟨fun _ _ _ hab hbc => Nat.le_trans hab hbc⟩

/-- `_compute_replacements` from `src/opencode/patch/index.py`: the
chunk loop followed by the ascending sort on start index. -/
def computeReplacements (originalLines : List Str) (filePath : Str)
    (chunks : List UpdateFileChunk) : Except Str (List Replacement) :=
  match computeRepsAux originalLines filePath chunks 0 with
  | .error e => .error e
  | .ok reps => .ok (reps.insertionSort repLE)

/-- One splice `result[start : start + old_length] = new_lines`
(Python list slice assignment; out-of-range bounds clamp, as `take` and
`drop` do). -/
def spliceReplacement (acc : List Str) (r : Replacement) : List Str :=
  acc.take r.start_index ++ r.new_lines ++ acc.drop (r.start_index + r.old_length)

/-- `_apply_replacements` from `src/opencode/patch/index.py`: apply the
replacements from the highest start index to the lowest (the loop runs
over the sorted list in reverse; `foldr` applies the last list element
first). -/
def applyReplacements (lines : List Str) (replacements : List Replacement) : List Str :=
  replacements.foldr (fun r acc => spliceReplacement acc r) lines

/-- One step of the position-aligned walk of `_generate_unified_diff`:
out-of-range lines read as empty, a differing position emits `-` and
`+` lines (each only when non-empty, Python truthiness) and marks the
diff as non-empty, an equal non-empty line emits a space line. -/
def diffStep (oldLines newLines : List Str) (st : List Str × Bool) (i : Nat) :
    List Str × Bool :=
  let oldLine := oldLines.getD i []
  let newLine := newLines.getD i []
  if oldLine ≠ newLine then
    let withOld := if oldLine ≠ [] then st.1 ++ ['-' :: oldLine] else st.1
    let withNew := if newLine ≠ [] then withOld ++ ['+' :: newLine] else withOld
    (withNew, true)
  else if oldLine ≠ [] then (st.1 ++ [' ' :: oldLine], st.2)
  else st

/-- `_generate_unified_diff` from `src/opencode/patch/index.py`
(inlined in `apply_chunks_to_content` of the tool copy): simplified
positional line diff; returns the empty string when no position
differs. -/
def generateUnifiedDiff (oldContent newContent : Str) : Str :=
  let oldLines := splitNl oldContent
  let newLines := splitNl newContent
  let maxLen := max oldLines.length newLines.length
  let start : List Str × Bool := (["@@ -1 +1 @@".toList], false)
  let result := (List.range maxLen).foldl (diffStep oldLines newLines) start
  if result.2 then joinNl result.1 else []

/-- The line list `derive_new_contents_from_chunks` matches against:
the newline split of the original content with a trailing empty
sentinel popped. -/
def originalLinesOf (originalContent : Str) : List Str :=
  let ls := splitNl originalContent
  if ls ≠ [] ∧ ls.getLast? = some [] then ls.dropLast else ls

/-- The pure part of `derive_new_contents_from_chunks`
(`src/opencode/patch/index.py` lines 351-372), with the file read made
explicit by passing the current content: split and pop the sentinel,
compute and apply the replacements, re-append a terminating empty
element when the result does not end with one, rejoin, and produce the
positional diff. -/
def deriveFromContent (filePath : Str) (originalContent : Str)
    (chunks : List UpdateFileChunk) : Except Str FileUpdate :=
  let originalLines := originalLinesOf originalContent
  match computeReplacements originalLines filePath chunks with
  | .error e => .error e
  | .ok replacements =>
    let newLines := applyReplacements originalLines replacements
    let newLines :=
      if newLines = [] ∨ newLines.getLast? ≠ some [] then newLines ++ [[]] else newLines
    let newContent := joinNl newLines
    .ok ⟨generateUnifiedDiff originalContent newContent, newContent⟩

/-! ### The patch parser -/

/-- ASCII word characters, Python regex `\w` restricted to the ASCII
range (the inputs of interest contain no non-ASCII tag names). -/
def isWordChar (c : Char) : Bool := c.isAlphanum || c = '_'

/-- Quote characters accepted around a heredoc tag by the source
regex character class. -/
def isQuoteChar (c : Char) : Bool := c.val = 39 || c.val = 34

/-- The optional `(?:cat\s+)?` prefix of the heredoc regex: when the
input starts with `cat` followed by at least one whitespace character,
the alternative without the group cannot match (the next token must be
`<<`), so the choice is deterministic. -/
def afterOptCat (s : Str) : Str :=
  match s with
  | 'c' :: 'a' :: 't' :: rest =>
    let ws := rest.takeWhile isPyWhitespace
    if ws = [] then s else rest.drop ws.length
  | _ => s

/-- Index just after the last newline of the whitespace run `ws`, if
any: the greedy `\s*` before the literal `\n` of the heredoc header
ends at the last newline of the run. -/
def lastNewlineSplit (ws : Str) : Option Nat :=
  match ws.reverse.findIdx? (fun c => c = '\n') with
  | some k => some (ws.length - k)
  | none => none

/-- `_strip_heredoc` from `src/opencode/patch/index.py`: the regex
`^(?:cat\s+)?<<['"]*(\w+)['"]*\s*\n([\s\S]*?)\n\1\s*$` applied with
`re.match` to the already outer-stripped input.  The lazy body and the
backreference make the match deterministic: after the header the body
runs up to the final `\n` + tag, which (the input being stripped, so
`\s*$` must match the empty string) has to sit exactly at the end.
The greedy `\s*` of the header ends at the last newline of the
whitespace run that still leaves the closing `\n` + tag intact.  On no
match the input is returned unchanged.  (The tool copy's regex uses
`['\"]?` for the quotes instead of `['"]*`; both accept the unquoted
and single-quoted tags exercised here.) -/
def stripHeredoc (s : Str) : Str :=
  match afterOptCat s with
  | '<' :: '<' :: afterArrows =>
    let afterQ1 := afterArrows.drop (afterArrows.takeWhile isQuoteChar).length
    let tag := afterQ1.takeWhile isWordChar
    if tag = [] then s
    else
      let afterTag := afterQ1.drop tag.length
      let afterQ2 := afterTag.drop (afterTag.takeWhile isQuoteChar).length
      let ws := afterQ2.takeWhile isPyWhitespace
      -- the closing `\n` + tag must end the (stripped) input
      let closing := '\n' :: tag
      if closing.isSuffixOf afterQ2 ∧ tag.length + 1 ≤ afterQ2.length then
        let p := afterQ2.length - (tag.length + 1)
        match lastNewlineSplit (ws.take p) with
        | some bodyStart => (afterQ2.drop bodyStart).take (p - bodyStart)
        | none => s
      else s
  | _ => s

/-- Literal marker and header prefixes of the patch grammar. -/
def beginMarker : Str := "*** Begin Patch".toList

/-- The closing marker line. -/
def endMarker : Str := "*** End Patch".toList

/-- Prefix of an add-file header. -/
def addFileHeader : Str := "*** Add File:".toList

/-- Prefix of a delete-file header. -/
def deleteFileHeader : Str := "*** Delete File:".toList

/-- Prefix of an update-file header. -/
def updateFileHeader : Str := "*** Update File:".toList

/-- Prefix of a move-to header. -/
def moveToHeader : Str := "*** Move to:".toList

/-- The early end-of-chunk marker line. -/
def endOfFileMarker : Str := "*** End of File".toList

/-- Prefix of any `***` record line. -/
def starsMarker : Str := "***".toList

/-- Python `line.split(":", 1)[1]`: everything after the first colon. -/
def afterFirstColon (line : Str) : Str :=
  (line.dropWhile (fun c => c ≠ ':')).drop 1

/-- `_parse_patch_header` from `src/opencode/patch/index.py`, on the
line suffix starting at the current index: recognises the three record
headers (and an immediately following move-to line after an update
header) and reports how many lines the header consumed.  This copy
accepts an empty path after the colon (the tool copy skips such
headers); the colon is always present since the matched prefix
contains one, so the source's `len(parts) > 1` guards are vacuous. -/
def parsePatchHeader : List Str → Option (Str × Option Str × Nat)
  | [] => none
  | line :: rest =>
    if addFileHeader.isPrefixOf line then
      some (pyStripChars (afterFirstColon line), none, 1)
    else if deleteFileHeader.isPrefixOf line then
      some (pyStripChars (afterFirstColon line), none, 1)
    else if updateFileHeader.isPrefixOf line then
      let filePath := pyStripChars (afterFirstColon line)
      match rest with
      | next :: _ =>
        if moveToHeader.isPrefixOf next then
          some (filePath, some (pyStripChars (afterFirstColon next)), 2)
        else some (filePath, none, 1)
      | [] => some (filePath, none, 1)
    else none

/-- The inner change-line loop of `_parse_update_file_chunks`, on the
line suffix after a `@@` line: returns the collected old lines, new
lines, the end-of-file flag and the remaining suffix.  The loop stops
at any `@@` or `***` line; the source's equality test against
`*** End of File` sits inside the loop body and is therefore dead
(the marker starts with `***`), which is reproduced here.  Lines with
no recognised prefix are skipped. -/
def parseChunkBody : List Str → List Str × List Str × Bool × List Str
  | [] => ([], [], false, [])
  | line :: rest =>
    if "@@".toList.isPrefixOf line ∨ starsMarker.isPrefixOf line then
      ([], [], false, line :: rest)
    else if line = endOfFileMarker then ([], [], true, rest)
    else
      match parseChunkBody rest with
      | (oldLines, newLines, isEof, remaining) =>
        if " ".toList.isPrefixOf line then
          (line.drop 1 :: oldLines, line.drop 1 :: newLines, isEof, remaining)
        else if "-".toList.isPrefixOf line then
          (line.drop 1 :: oldLines, newLines, isEof, remaining)
        else if "+".toList.isPrefixOf line then
          (oldLines, line.drop 1 :: newLines, isEof, remaining)
        else (oldLines, newLines, isEof, remaining)

/-- `parseChunkBody` never grows its input suffix. -/
theorem parseChunkBody_length_le (suffix : List Str) :
    (parseChunkBody suffix).2.2.2.length ≤ suffix.length := by
  induction suffix with
  | nil => simp [parseChunkBody]
  | cons line rest ih =>
    simp only [parseChunkBody]
    rcases hp : parseChunkBody rest with ⟨o, n, e, rem⟩
    rw [hp] at ih
    simp only at ih
    split
    · simp
    · split
      · simp
      · split
        · simp; omega
        · split
          · simp; omega
          · split
            · simp; omega
            · simp; omega

/-- `_parse_update_file_chunks` from `src/opencode/patch/index.py`, on
the line suffix after an update header: collect one chunk per `@@`
line (the remainder of the `@@` line, stripped, is the context; the
empty context becomes `none`, Python `context_line or None`), skip
other non-`***` lines, stop at any `***` line.  The fuel starts at the
suffix length; every iteration consumes at least one line, so the fuel
never runs out. -/
def parseUpdateChunksAux : Nat → List Str → List UpdateFileChunk × List Str
  | 0, suffix => ([], suffix)
  | _ + 1, [] => ([], [])
  | fuel + 1, line :: rest =>
    if starsMarker.isPrefixOf line then ([], line :: rest)
    else if "@@".toList.isPrefixOf line then
      let contextLine := pyStripChars (line.drop 2)
      match parseChunkBody rest with
      | (oldLines, newLines, isEof, remaining) =>
        match parseUpdateChunksAux fuel remaining with
        | (chunks, remaining2) =>
          (⟨oldLines, newLines, if contextLine = [] then none else some contextLine, isEof⟩
              :: chunks,
            remaining2)
    else parseUpdateChunksAux fuel rest

/-- `_parse_add_file_content` from `src/opencode/patch/index.py`, on
the line suffix after an add header: collect the `+`-stripped lines
until the next `***` line. -/
def parseAddBody : List Str → List Str × List Str
  | [] => ([], [])
  | line :: rest =>
    if starsMarker.isPrefixOf line then ([], line :: rest)
    else
      match parseAddBody rest with
      | (contentLines, remaining) =>
        (if "+".toList.isPrefixOf line then line.drop 1 :: contentLines else contentLines,
          remaining)

/-- The record loop of `parse_patch` (`src/opencode/patch/index.py`
lines 203-224): starting just after the begin marker, while the
current index is below the end-marker index, parse a header (skipping
one line when there is none or — dead branch — when the header line is
of no recognised kind) and dispatch to the add / delete / update body
helpers, which stop at any `***` line but are not bounded by the end
marker.  `i` tracks the absolute index of the suffix head; the fuel
starts at the full line count, and every iteration consumes at least
one line. -/
def parseHunksLoop : Nat → List Str → Nat → Nat → List Hunk
  | 0, _, _, _ => []
  | _ + 1, [], _, _ => []
  | fuel + 1, line :: rest, i, endIdx =>
    if i < endIdx then
      match parsePatchHeader (line :: rest) with
      | none => parseHunksLoop fuel rest (i + 1) endIdx
      | some (filePath, movePath, consumed) =>
        if addFileHeader.isPrefixOf line then
          let afterHeader := (line :: rest).drop consumed
          match parseAddBody afterHeader with
          | (contentLines, remaining) =>
            Hunk.add filePath (joinNl contentLines)
              :: parseHunksLoop fuel remaining
                  (i + consumed + (afterHeader.length - remaining.length)) endIdx
        else if deleteFileHeader.isPrefixOf line then
          Hunk.delete filePath
            :: parseHunksLoop fuel ((line :: rest).drop consumed) (i + consumed) endIdx
        else if updateFileHeader.isPrefixOf line then
          let afterHeader := (line :: rest).drop consumed
          match parseUpdateChunksAux afterHeader.length afterHeader with
          | (chunks, remaining) =>
            Hunk.update filePath movePath chunks
              :: parseHunksLoop fuel remaining
                  (i + consumed + (afterHeader.length - remaining.length)) endIdx
        else parseHunksLoop fuel rest (i + 1) endIdx
    else []

/-- `parse_patch` from `src/opencode/patch/index.py`: strip the outer
whitespace and an optional heredoc wrapper, split into lines, find the
first line whose stripped content equals each marker, fail when either
is missing or the begin index is not below the end index, then run the
record loop on the lines after the begin marker. -/
def parsePatch (patchText : Str) : Except Str (List Hunk) :=
  let cleaned := stripHeredoc (pyStripChars patchText)
  let lines := splitNl cleaned
  match lines.findIdx? (fun l => pyStripChars l = beginMarker),
      lines.findIdx? (fun l => pyStripChars l = endMarker) with
  | some beginIdx, some endIdx =>
    if beginIdx ≥ endIdx then
      .error "Invalid patch format: missing Begin/End markers".toList
    else
      .ok (parseHunksLoop lines.length (lines.drop (beginIdx + 1)) (beginIdx + 1) endIdx)
  | _, _ => .error "Invalid patch format: missing Begin/End markers".toList

/-- Python `text.replace("\r\n", "\n")` (left-to-right,
non-overlapping) followed by `.replace("\r", "\n")`, as used on the
patch text by the tool's empty-patch check. -/
def normalizeNewlines : Str → Str
  | '\r' :: '\n' :: rest => '\n' :: normalizeNewlines rest
  | '\r' :: rest => '\n' :: normalizeNewlines rest
  | c :: rest => c :: normalizeNewlines rest
  | [] => []

/-- The parse stage of `ApplyPatchTool.execute`
(`src/opencode/tool/apply_patch.py` lines 339-345): parse the patch
text and, when no hunks were produced, reject — with the dedicated
`empty patch` message when the newline-normalised, stripped text is
exactly the two bare markers. -/
def executePatchCheck (patchText : Str) : Except Str (List Hunk) :=
  match parsePatch patchText with
  | .error e => .error e
  | .ok hunks =>
    if hunks = [] then
      let normalized := pyStripChars (normalizeNewlines patchText)
      if normalized = "*** Begin Patch\n*** End Patch".toList then
        .error "patch rejected: empty patch".toList
      else .error "apply_patch verification failed: no hunks found".toList
    else .ok hunks

/-! ### The filesystem applier -/

/-- The file system is modelled as a partial map from paths to file
contents. -/
def FileSystem := Str → Option Str

/-- Writing a file (`Path.write_text`; parent-directory creation has no
observable effect in this model). -/
def fsWrite (fs : FileSystem) (path contents : Str) : FileSystem :=
  fun q => if q = path then some contents else fs q

/-- Removing a file (`Path.unlink(missing_ok=True)`): never an error,
a no-op on a missing path. -/
def fsErase (fs : FileSystem) (path : Str) : FileSystem :=
  fun q => if q = path then none else fs q

/-- `derive_new_contents_from_chunks` from
`src/opencode/patch/index.py` with the file read made explicit: a
missing file surfaces as the read error, otherwise the pure
replacement engine runs on the content. -/
def deriveNewContentsFromChunks (fs : FileSystem) (filePath : Str)
    (chunks : List UpdateFileChunk) : Except Str FileUpdate :=
  match fs filePath with
  | none => .error ("Failed to read file ".toList ++ filePath)
  | some content => deriveFromContent filePath content chunks

/-- The hunk loop of `apply_hunks_to_files`
(`src/opencode/patch/index.py` lines 384-412): adds write the contents
verbatim and record the path under `added`; deletes unlink with
`missing_ok=True` and record the path under `deleted` whether or not
the file existed; updates run the replacement engine on the current
content (a missing file is an error) and write to `move_path`
(unlinking the original) or in place, recording the written path under
`modified`.  An error aborts the remaining hunks (the already-applied
file mutations are not reported, matching the raised exception). -/
def applyHunksAux (fs : FileSystem) : List Hunk → Except Str (FileSystem × AffectedPaths)
  | [] => .ok (fs, ⟨[], [], []⟩)
  | Hunk.add path contents :: rest =>
    match applyHunksAux (fsWrite fs path contents) rest with
    | .error e => .error e
    | .ok (fs2, paths) => .ok (fs2, ⟨path :: paths.added, paths.modified, paths.deleted⟩)
  | Hunk.delete path :: rest =>
    match applyHunksAux (fsErase fs path) rest with
    | .error e => .error e
    | .ok (fs2, paths) => .ok (fs2, ⟨paths.added, paths.modified, path :: paths.deleted⟩)
  | Hunk.update path movePath chunks :: rest =>
    match deriveNewContentsFromChunks fs path chunks with
    | .error e => .error e
    | .ok fileUpdate =>
      match movePath with
      | some moveTo =>
        match applyHunksAux (fsErase (fsWrite fs moveTo fileUpdate.content) path) rest with
        | .error e => .error e
        | .ok (fs2, paths) =>
          .ok (fs2, ⟨paths.added, moveTo :: paths.modified, paths.deleted⟩)
      | none =>
        match applyHunksAux (fsWrite fs path fileUpdate.content) rest with
        | .error e => .error e
        | .ok (fs2, paths) =>
          .ok (fs2, ⟨paths.added, path :: paths.modified, paths.deleted⟩)

/-- `apply_hunks_to_files` from `src/opencode/patch/index.py`: an
empty hunk list is rejected, otherwise the hunks are applied in
document order. -/
def applyHunksToFiles (fs : FileSystem) (hunks : List Hunk) :
    Except Str (FileSystem × AffectedPaths) :=
  if hunks = [] then .error "No files were modified.".toList
  else applyHunksAux fs hunks

/-! ### Claim C10: empty pattern never matches -/

/-- C10: for every line list, every start index and both values of the
eof flag, the sequence locator returns `-1` on an empty pattern rather
than trivially matching at the start index. -/
theorem claim_C10 (lines : List Str) (startIndex : Nat) (eof : Bool) :
    seekSequence lines [] startIndex eof = -1 := rfl

/-! ### Claim C4: the empty patch is rejected -/

/-- C4: applying the patch document `*** Begin Patch\n*** End Patch`
(zero hunks) fails with a parse error whose message carries
`empty patch`; it is never accepted as a successful no-op.  The
library applier likewise rejects the resulting empty hunk list
(with its own `No files were modified.` message). -/
theorem claim_C4 :
    executePatchCheck "*** Begin Patch\n*** End Patch".toList =
      .error "patch rejected: empty patch".toList ∧
    "empty patch".toList <:+: "patch rejected: empty patch".toList ∧
    applyHunksToFiles (fun _ => none) [] = .error "No files were modified.".toList :=
  ⟨by rfl, by decide, rfl⟩

/-! ### Claim C5: deleting a missing file -/

/-- C5: a `Delete` hunk applied by the filesystem applier never fails
and always records its path under `deleted`; when the target file does
not exist the file system is left unchanged (so the missing file is
not an error and the path is recorded exactly as in the existing-file
case). -/
theorem claim_C5 (fs : FileSystem) (path : Str) :
    applyHunksToFiles fs [Hunk.delete path] = .ok (fsErase fs path, ⟨[], [], [path]⟩) ∧
    (fs path = none → fsErase fs path = fs) := by
  constructor
  · rfl
  · intro h
    funext q
    simp only [fsErase]
    split
    · next hq => rw [hq, h]
    · rfl

/-- Witness for C5 at a concrete empty file system and path. -/
theorem claim_C5_witness :
    applyHunksToFiles (fun _ => none) [Hunk.delete ['a']] =
      .ok (fsErase (fun _ => none) ['a'], ⟨[], [], [['a']]⟩) ∧
    fsErase (fun _ => none) ['a'] = (fun _ => none) :=
  ⟨(claim_C5 (fun _ => none) ['a']).1, (claim_C5 (fun _ => none) ['a']).2 rfl⟩

/-! ### Claim C9: the Begin/End marker check -/

/-- C9 counterexample: the parser does not require a line exactly
equal to `*** Begin Patch` — an input whose begin-marker line carries
a leading space (so no line is exactly the marker) still parses
without a `ParseError`, because the source compares each line after
stripping it. -/
theorem claim_C9_cex :
    (splitNl (stripHeredoc (pyStripChars "x\n *** Begin Patch\n*** End Patch".toList))).contains
        beginMarker = false ∧
    parsePatch "x\n *** Begin Patch\n*** End Patch".toList = .ok [] :=
  ⟨by decide, by rfl⟩

/-- C9 amended: on the heredoc-stripped, outer-trimmed input the
parser fails with a `ParseError` if and only if there is no line whose
whitespace-stripped content equals `*** Begin Patch`, or none equal to
`*** End Patch`, or the first such begin line does not come strictly
before the first such end line; when the first stripped begin marker
precedes the first stripped end marker the input parses without a
`ParseError`. -/
theorem claim_C9 (patchText : Str) :
    (∃ hunks, parsePatch patchText = .ok hunks) ↔
    (∃ beginIdx endIdx,
      (splitNl (stripHeredoc (pyStripChars patchText))).findIdx?
          (fun l => pyStripChars l = beginMarker) = some beginIdx ∧
      (splitNl (stripHeredoc (pyStripChars patchText))).findIdx?
          (fun l => pyStripChars l = endMarker) = some endIdx ∧
      beginIdx < endIdx) := by
  unfold parsePatch
  cases hb : (splitNl (stripHeredoc (pyStripChars patchText))).findIdx?
      (fun l => pyStripChars l = beginMarker) with
  | none =>
    simp only [hb]
    cases he : (splitNl (stripHeredoc (pyStripChars patchText))).findIdx?
        (fun l => pyStripChars l = endMarker) <;> simp [he]
  | some beginIdx =>
    simp only [hb]
    cases he : (splitNl (stripHeredoc (pyStripChars patchText))).findIdx?
        (fun l => pyStripChars l = endMarker) with
    | none => simp [he]
    | some endIdx =>
      simp only [he]
      by_cases hlt : beginIdx ≥ endIdx
      · simp only [hlt, if_true]
        constructor
        · rintro ⟨hunks, h⟩; cases h
        · rintro ⟨b, e, h1, h2, h3⟩
          cases h1; cases h2; omega
      · simp only [hlt, if_false]
        constructor
        · intro _
          exact ⟨beginIdx, endIdx, rfl, rfl, by omega⟩
        · intro _
          exact ⟨_, rfl⟩

/-! ### Claim C1: pure insertions ignore the cursor -/

/-- C1 counterexample: for lines `["a", "b", "c"]` and a pure-insertion
chunk whose context `"a"` is located at index 0 (repositioning the
cursor to 1), the claim predicts the replacement `(1, 0, ["X"])` at
the repositioned cursor; the engine instead emits `(3, 0, ["X"])` at
the end of file. -/
theorem claim_C1_cex :
    computeReplacements [['a'], ['b'], ['c']] [] [⟨[], [['X']], some ['a'], false⟩] =
      .ok [⟨3, 0, [['X']]⟩] ∧
    computeReplacements [['a'], ['b'], ['c']] [] [⟨[], [['X']], some ['a'], false⟩] ≠
      .ok [⟨1, 0, [['X']]⟩] := by
  refine ⟨by rfl, fun h => ?_⟩
  rw [show computeReplacements [['a'], ['b'], ['c']] [] [⟨[], [['X']], some ['a'], false⟩] =
    .ok [⟨3, 0, [['X']]⟩] from rfl] at h
  simp at h

/-- C1 amended: for every `Update` chunk whose `old_lines` is empty
(pure insertion) that the replacement engine processes without error,
the emitted replacement inserts `new_lines` at the end-of-file index
(the current line count, or one less when the last line is the empty
trailing sentinel) regardless of the cursor, even when a present
context was located and repositioned the cursor. -/
theorem claim_C1 (originalLines : List Str) (filePath : Str) (chunk : UpdateFileChunk)
    (rest : List UpdateFileChunk) (lineIndex : Nat) (reps : List Replacement)
    (hempty : chunk.old_lines = [])
    (hok : computeRepsAux originalLines filePath (chunk :: rest) lineIndex = .ok reps) :
    reps.head? = some ⟨insertionIndexOf originalLines, 0, chunk.new_lines⟩ := by
  unfold computeRepsAux at hok
  cases hctx : contextCursor originalLines filePath chunk.change_context lineIndex with
  | error e => rw [hctx] at hok; cases hok
  | ok lineIndex1 =>
    rw [hctx] at hok
    dsimp only at hok
    rw [if_pos hempty] at hok
    cases hrec : computeRepsAux originalLines filePath rest lineIndex1 with
    | error e => rw [hrec] at hok; cases hok
    | ok rs => rw [hrec] at hok; cases hok; rfl

/-- Witness for C1 at the counterexample input: the context is present
and located, yet the successful run's first replacement sits at the
end-of-file index. -/
theorem claim_C1_witness :
    ([⟨3, 0, [['X']]⟩] : List Replacement).head? =
      some ⟨insertionIndexOf [['a'], ['b'], ['c']], 0, [['X']]⟩ :=
  claim_C1 [['a'], ['b'], ['c']] [] ⟨[], [['X']], some ['a'], false⟩ [] 0
    [⟨3, 0, [['X']]⟩] rfl (by rfl)

/-! ### Claim C6: trailing newlines of the derived content -/

/-- Joining with newlines a line list that ends with an empty line
yields either the empty string (single empty line) or a string ending
in a newline. -/
theorem joinNl_getLast_empty :
    ∀ l : List Str, l.getLast? = some [] →
      joinNl l = [] ∨ (joinNl l).getLast? = some '\n' := by
  intro l
  induction l with
  | nil => intro h; cases h
  | cons x t ih =>
    intro h
    cases t with
    | nil =>
      left
      simp at h
      simp [joinNl, h]
    | cons y t2 =>
      right
      have h2 : (y :: t2).getLast? = some [] := by
        simpa using h
      have hne : joinNl (y :: t2) = [] ∨ (joinNl (y :: t2)).getLast? = some '\n' := ih h2
      show (x ++ '\n' :: joinNl (y :: t2)).getLast? = some '\n'
      rw [List.getLast?_append_cons]
      cases hne with
      | inl hemp => rw [hemp]; rfl
      | inr hlast =>
        cases hj : joinNl (y :: t2) with
        | nil => rw [hj] at hlast; cases hlast
        | cons c cs =>
          rw [hj] at hlast
          rw [show ('\n' :: c :: cs).getLast? = (c :: cs).getLast? by simp]
          exact hlast

/-- C6 counterexample: for original content `"a\n"` and a chunk
replacing `["a"]` by `["b", "", ""]`, the engine succeeds but the
returned content is `"b\n\n"`, which ends with two newlines, not
exactly one. -/
theorem claim_C6_cex :
    deriveFromContent [] ['a', '\n'] [⟨[['a']], [['b'], [], []], none, false⟩] =
      .ok ⟨"@@ -1 +1 @@\n-a\n+b".toList, ['b', '\n', '\n']⟩ ∧
    ['\n', '\n'] <:+ ['b', '\n', '\n'] :=
  ⟨by rfl, by decide⟩

/-- C6 amended: for every original text and chunk list that the
replacement engine processes without error, the returned content is
either empty (the degenerate single-empty-line result) or ends with a
trailing newline: a terminating empty element is appended to the
result lines exactly when the result is empty or does not already end
with one, so the content always ends with at least one newline when
non-empty, but may end with several when the chunk's new lines
themselves end with empty strings. -/
theorem claim_C6 (filePath originalContent : Str) (chunks : List UpdateFileChunk)
    (fileUpdate : FileUpdate)
    (hok : deriveFromContent filePath originalContent chunks = .ok fileUpdate) :
    fileUpdate.content = [] ∨ fileUpdate.content.getLast? = some '\n' := by
  simp only [deriveFromContent] at hok
  cases hreps : computeReplacements (originalLinesOf originalContent) filePath chunks with
  | error e => rw [hreps] at hok; cases hok
  | ok replacements =>
    rw [hreps] at hok
    dsimp only at hok
    cases hok
    apply joinNl_getLast_empty
    by_cases hform : applyReplacements (originalLinesOf originalContent) replacements = [] ∨
        (applyReplacements (originalLinesOf originalContent) replacements).getLast? ≠ some []
    · rw [if_pos hform]
      simp
    · rw [if_neg hform]
      push_neg at hform
      exact hform.2

/-- Witness for C6 at the concrete scenario `"foo\nbar\n"` with chunk
`["bar"] -> ["baz"]`. -/
theorem claim_C6_witness :
    ("foo\nbaz\n".toList : Str) = [] ∨ ("foo\nbaz\n".toList).getLast? = some '\n' :=
  claim_C6 [] "foo\nbar\n".toList [⟨["bar".toList], ["baz".toList], none, false⟩]
    ⟨"@@ -1 +1 @@\n foo\n-bar\n+baz".toList, "foo\nbaz\n".toList⟩ (by rfl)

/-! ### Claim C8: how paths land in the three sets -/

/-- The path a hunk contributes to `added` (adds only). -/
def hunkAddedPath : Hunk → Option Str
  | .add path _ => some path
  | _ => none

/-- The path a hunk contributes to `modified` (updates only; the move
target when a move path is set). -/
def hunkModifiedPath : Hunk → Option Str
  | .update path movePath _ => some (movePath.getD path)
  | _ => none

/-- The path a hunk contributes to `deleted` (deletes only). -/
def hunkDeletedPath : Hunk → Option Str
  | .delete path => some path
  | _ => none

/-- The hunk loop accumulates exactly one path per hunk into the set
selected by the hunk's kind. -/
theorem applyHunksAux_paths :
    ∀ (hunks : List Hunk) (fs fs2 : FileSystem) (paths : AffectedPaths),
      applyHunksAux fs hunks = .ok (fs2, paths) →
      paths.added = hunks.filterMap hunkAddedPath ∧
      paths.modified = hunks.filterMap hunkModifiedPath ∧
      paths.deleted = hunks.filterMap hunkDeletedPath := by
  intro hunks
  induction hunks with
  | nil =>
    intro fs fs2 paths hok
    cases hok
    simp [hunkAddedPath, hunkModifiedPath, hunkDeletedPath]
  | cons h rest ih =>
    intro fs fs2 paths hok
    cases h with
    | add path contents =>
      unfold applyHunksAux at hok
      cases hrec : applyHunksAux (fsWrite fs path contents) rest with
      | error e => rw [hrec] at hok; cases hok
      | ok pr =>
        rw [hrec] at hok
        cases hok
        obtain ⟨hA, hM, hD⟩ := ih (fsWrite fs path contents) pr.1 pr.2 (by rw [hrec])
        simp [hunkAddedPath, hunkModifiedPath, hunkDeletedPath, List.filterMap_cons, hA, hM, hD]
    | delete path =>
      unfold applyHunksAux at hok
      cases hrec : applyHunksAux (fsErase fs path) rest with
      | error e => rw [hrec] at hok; cases hok
      | ok pr =>
        rw [hrec] at hok
        cases hok
        obtain ⟨hA, hM, hD⟩ := ih (fsErase fs path) pr.1 pr.2 (by rw [hrec])
        simp [hunkAddedPath, hunkModifiedPath, hunkDeletedPath, List.filterMap_cons, hA, hM, hD]
    | update path movePath chunks =>
      unfold applyHunksAux at hok
      cases hupd : deriveNewContentsFromChunks fs path chunks with
      | error e => rw [hupd] at hok; cases hok
      | ok fileUpdate =>
        rw [hupd] at hok
        cases movePath with
        | some moveTo =>
          dsimp only at hok
          cases hrec : applyHunksAux (fsErase (fsWrite fs moveTo fileUpdate.content) path) rest with
          | error e => rw [hrec] at hok; cases hok
          | ok pr =>
            rw [hrec] at hok
            cases hok
            obtain ⟨hA, hM, hD⟩ :=
              ih (fsErase (fsWrite fs moveTo fileUpdate.content) path) pr.1 pr.2 (by rw [hrec])
            simp [hunkAddedPath, hunkModifiedPath, hunkDeletedPath, List.filterMap_cons,
              hA, hM, hD]
        | none =>
          dsimp only at hok
          cases hrec : applyHunksAux (fsWrite fs path fileUpdate.content) rest with
          | error e => rw [hrec] at hok; cases hok
          | ok pr =>
            rw [hrec] at hok
            cases hok
            obtain ⟨hA, hM, hD⟩ :=
              ih (fsWrite fs path fileUpdate.content) pr.1 pr.2 (by rw [hrec])
            simp [hunkAddedPath, hunkModifiedPath, hunkDeletedPath, List.filterMap_cons,
              hA, hM, hD]

/-- C8 counterexample: a patch adding `a` and then deleting `a` is
applied successfully, and the path `a` appears in both the `added` set
and the `deleted` set of the returned `AffectedPaths` — not in
exactly one of the three sets. -/
theorem claim_C8_cex :
    (applyHunksToFiles (fun _ => none) [Hunk.add ['a'] [], Hunk.delete ['a']]).map
        (fun r => r.2) = .ok ⟨[['a']], [], [['a']]⟩ ∧
    ['a'] ∈ ([['a']] : List Str) ∧ ['a'] ∈ ([['a']] : List Str) :=
  ⟨by rfl, by decide, by decide⟩

/-- C8 amended: for every hunk list successfully applied by the
filesystem applier, each hunk contributes its path to exactly the one
set selected by its kind (adds to `added`, deletes to `deleted`,
updates to `modified` under the move target when present); a path
referenced by several hunks may therefore appear in more than one set,
and the same path may even repeat within one set. -/
theorem claim_C8 (fs : FileSystem) (hunks : List Hunk) (fs2 : FileSystem)
    (paths : AffectedPaths)
    (hok : applyHunksToFiles fs hunks = .ok (fs2, paths)) :
    paths.added = hunks.filterMap hunkAddedPath ∧
    paths.modified = hunks.filterMap hunkModifiedPath ∧
    paths.deleted = hunks.filterMap hunkDeletedPath := by
  unfold applyHunksToFiles at hok
  split at hok
  · cases hok
  · exact applyHunksAux_paths hunks fs fs2 paths hok

/-- Witness for C8 at the add-then-delete patch. -/
theorem claim_C8_witness :
    (⟨[['a']], [], [['a']]⟩ : AffectedPaths).added =
        [Hunk.add ['a'] [], Hunk.delete ['a']].filterMap hunkAddedPath ∧
    (⟨[['a']], [], [['a']]⟩ : AffectedPaths).modified =
        [Hunk.add ['a'] [], Hunk.delete ['a']].filterMap hunkModifiedPath ∧
    (⟨[['a']], [], [['a']]⟩ : AffectedPaths).deleted =
        [Hunk.add ['a'] [], Hunk.delete ['a']].filterMap hunkDeletedPath :=
  claim_C8 (fun _ => none) [Hunk.add ['a'] [], Hunk.delete ['a']]
    (fsErase (fsWrite (fun _ => none) ['a'] []) ['a']) ⟨[['a']], [], [['a']]⟩ (by rfl)

/-! ### Claim C3: order and overlap of the computed replacements -/

/-- The empty pattern never matches (helper form of the guard at the
top of `_seek_sequence`). -/
theorem seekSequence_nil (lines : List Str) (startIndex : Nat) (eof : Bool) :
    seekSequence lines [] startIndex eof = -1 := rfl

/-- A successful end-of-file attempt returns an offset at or after the
start index. -/
theorem tryMatchEofHit_ge (cmp : Str → Str → Bool) (lines pattern : List Str)
    (startIndex : Nat) (v : Int)
    (h : tryMatchEofHit cmp lines pattern startIndex = some v) :
    (startIndex : Int) ≤ v := by
  unfold tryMatchEofHit at h
  dsimp only at h
  split at h
  · split at h
    · cases h
      assumption
    · cases h
  · cases h

/-- The forward scan fails or returns an offset at or after the start
index. -/
theorem tryMatchScan_neg_one_or_ge (cmp : Str → Str → Bool) (lines pattern : List Str)
    (startIndex : Nat) :
    tryMatchScan cmp lines pattern startIndex = -1 ∨
      (startIndex : Int) ≤ tryMatchScan cmp lines pattern startIndex := by
  unfold tryMatchScan
  cases hf : (List.range ((lines.length + 1 - pattern.length) - startIndex)).find?
      (fun k => matchesAt cmp lines pattern (startIndex + k)) with
  | none => left; rfl
  | some k =>
    right
    dsimp only
    exact_mod_cast Nat.le_add_right startIndex k

/-- A comparison pass fails or returns an offset at or after the start
index. -/
theorem tryMatch_neg_one_or_ge (cmp : Str → Str → Bool) (lines pattern : List Str)
    (startIndex : Nat) (eof : Bool) :
    tryMatch cmp lines pattern startIndex eof = -1 ∨
      (startIndex : Int) ≤ tryMatch cmp lines pattern startIndex eof := by
  unfold tryMatch
  cases heof : (if eof then tryMatchEofHit cmp lines pattern startIndex else none) with
  | none => exact tryMatchScan_neg_one_or_ge cmp lines pattern startIndex
  | some v =>
    right
    split at heof
    · exact tryMatchEofHit_ge cmp lines pattern startIndex v heof
    · cases heof

/-- The locator fails or returns an offset at or after the start
index. -/
theorem seekSequence_neg_one_or_ge (lines pattern : List Str) (startIndex : Nat)
    (eof : Bool) :
    seekSequence lines pattern startIndex eof = -1 ∨
      (startIndex : Int) ≤ seekSequence lines pattern startIndex eof := by
  unfold seekSequence
  split
  · left; rfl
  · by_cases h1 : tryMatch cmpExact lines pattern startIndex eof ≠ -1
    · rw [if_pos h1]
      rcases tryMatch_neg_one_or_ge cmpExact lines pattern startIndex eof with h | h
      · exact absurd h h1
      · right; exact h
    · rw [if_neg h1]
      by_cases h2 : tryMatch cmpRstrip lines pattern startIndex eof ≠ -1
      · rw [if_pos h2]
        rcases tryMatch_neg_one_or_ge cmpRstrip lines pattern startIndex eof with h | h
        · exact absurd h h2
        · right; exact h
      · rw [if_neg h2]
        by_cases h3 : tryMatch cmpStrip lines pattern startIndex eof ≠ -1
        · rw [if_pos h3]
          rcases tryMatch_neg_one_or_ge cmpStrip lines pattern startIndex eof with h | h
          · exact absurd h h3
          · right; exact h
        · rw [if_neg h3]
          exact tryMatch_neg_one_or_ge cmpNorm lines pattern startIndex eof

/-- A relocated cursor never moves backwards. -/
theorem contextCursor_ge (originalLines : List Str) (filePath : Str)
    (changeContext : Option Str) (lineIndex lineIndex1 : Nat)
    (h : contextCursor originalLines filePath changeContext lineIndex = .ok lineIndex1) :
    lineIndex ≤ lineIndex1 := by
  unfold contextCursor at h
  cases changeContext with
  | none => cases h; exact Nat.le_refl _
  | some ctx =>
    replace h : (if ctx = [] then (Except.ok lineIndex : Except Str Nat)
        else
          if seekSequence originalLines [ctx] lineIndex false = -1 then
            Except.error ("Failed to find context in ".toList ++ filePath)
          else Except.ok ((seekSequence originalLines [ctx] lineIndex false).toNat + 1)) =
        Except.ok lineIndex1 := h
    by_cases hc : ctx = []
    · rw [if_pos hc] at h
      cases h
      exact Nat.le_refl _
    · rw [if_neg hc] at h
      by_cases hs : seekSequence originalLines [ctx] lineIndex false = -1
      · rw [if_pos hs] at h; cases h
      · rw [if_neg hs] at h
        cases h
        rcases seekSequence_neg_one_or_ge originalLines [ctx] lineIndex false with h | h
        · exact absurd h hs
        · have : lineIndex ≤ (seekSequence originalLines [ctx] lineIndex false).toNat := by
            omega
          omega

/-- The offset returned by the location step is the result of seeking
exactly the pattern the step settled on, from the cursor it was given. -/
theorem locateChunk_found (originalLines : List Str) (chunk : UpdateFileChunk)
    (lineIndex1 : Nat) :
    (locateChunk originalLines chunk lineIndex1).2.2 =
      seekSequence originalLines (locateChunk originalLines chunk lineIndex1).1
        lineIndex1 chunk.is_end_of_file := by
  unfold locateChunk
  by_cases h : seekSequence originalLines chunk.old_lines lineIndex1 chunk.is_end_of_file = -1 ∧
      chunk.old_lines ≠ [] ∧ chunk.old_lines.getLast? = some []
  · rw [if_pos h]
  · rw [if_neg h]

/-- Invariant of the chunk loop: when every chunk has non-empty
`old_lines`, each emitted replacement starts at or after the cursor
the loop was entered with, has positive old length, and the emitted
list is pairwise non-overlapping in emission order. -/
theorem computeRepsAux_invariant :
    ∀ (chunks : List UpdateFileChunk) (originalLines : List Str) (filePath : Str)
      (idx : Nat) (reps : List Replacement),
      computeRepsAux originalLines filePath chunks idx = .ok reps →
      (∀ c ∈ chunks, c.old_lines ≠ []) →
      (∀ r ∈ reps, idx ≤ r.start_index ∧ 1 ≤ r.old_length) ∧
      reps.Pairwise (fun a b => a.start_index + a.old_length ≤ b.start_index) := by
  intro chunks
  induction chunks with
  | nil =>
    intro lines fp idx reps hok _
    cases hok
    exact ⟨by simp, by simp⟩
  | cons chunk rest ih =>
    intro lines fp idx reps hok hall
    have hchunk : chunk.old_lines ≠ [] := hall chunk (by simp)
    have hrest : ∀ c ∈ rest, c.old_lines ≠ [] := fun c hc => hall c (by simp [hc])
    unfold computeRepsAux at hok
    cases hctx : contextCursor lines fp chunk.change_context idx with
    | error e => rw [hctx] at hok; cases hok
    | ok idx1 =>
      rw [hctx] at hok
      dsimp only at hok
      rw [if_neg hchunk] at hok
      rcases hloc : locateChunk lines chunk idx1 with ⟨pattern, newSlice, found⟩
      rw [hloc] at hok
      dsimp only at hok
      by_cases hfound : found ≠ -1
      · rw [if_pos hfound] at hok
        cases hrec : computeRepsAux lines fp rest (found.toNat + pattern.length) with
        | error e => rw [hrec] at hok; cases hok
        | ok rs =>
          rw [hrec] at hok
          cases hok
          obtain ⟨hmem, hpair⟩ := ih lines fp (found.toNat + pattern.length) rs hrec hrest
          have hfs : found = seekSequence lines pattern idx1 chunk.is_end_of_file := by
            have hlf := locateChunk_found lines chunk idx1
            rw [hloc] at hlf
            exact hlf
          have hpat : pattern ≠ [] := by
            intro hpe
            apply hfound
            rw [hfs, hpe]
            exact seekSequence_nil lines idx1 chunk.is_end_of_file
          have hge : (idx1 : Int) ≤ found := by
            rcases seekSequence_neg_one_or_ge lines pattern idx1 chunk.is_end_of_file with h | h
            · rw [hfs] at hfound; exact absurd h hfound
            · rw [hfs]; exact h
          have hidx : idx ≤ idx1 :=
            contextCursor_ge lines fp chunk.change_context idx idx1 hctx
          have hstart : idx ≤ found.toNat := by omega
          have hlen : 1 ≤ pattern.length := List.length_pos.mpr hpat
          constructor
          · intro r hr
            rcases List.mem_cons.mp hr with rfl | hr
            · exact ⟨hstart, hlen⟩
            · have hm := hmem r hr
              exact ⟨by omega, hm.2⟩
          · exact List.Pairwise.cons (fun b hb => (hmem b hb).1) hpair
      · rw [if_neg hfound] at hok
        cases hok

/-- C3 counterexample: a pure-insertion chunk followed by a chunk
matching through the end of a file whose popped line list still ends
with an empty line produces, without error, the sorted replacement
list `[(0, 2, _), (1, 0, _)]`, whose insertion start 1 lies strictly
inside the range `[0, 2)` of the first replacement — the list is not
pairwise non-overlapping. -/
theorem claim_C3_cex :
    computeReplacements [['a'], []] []
        [⟨[], [['X']], none, false⟩, ⟨[['a'], []], [['b'], []], none, false⟩] =
      .ok [⟨0, 2, [['b'], []]⟩, ⟨1, 0, [['X']]⟩] ∧
    ¬ ([⟨0, 2, [['b'], []]⟩, ⟨1, 0, [['X']]⟩] : List Replacement).Pairwise
        (fun a b => a.start_index + a.old_length ≤ b.start_index) := by
  refine ⟨by rfl, fun h => ?_⟩
  have h2 := List.rel_of_pairwise_cons h (List.mem_singleton.mpr rfl)
  exact absurd h2 (by decide)

/-- C3 amended: for every chunk list processed without error the
computed replacement list is sorted ascending by start index, and when
every chunk has non-empty `old_lines` (no pure insertions) the
replacements are also pairwise non-overlapping — in particular two
chunks with identical `old_lines` match at disjoint, increasing
ranges, the search cursor never regressing.  Pure-insertion chunks
target the end-of-file index and may fall strictly inside another
replacement's range when the popped line list ends with an empty
line. -/
theorem claim_C3 (originalLines : List Str) (filePath : Str)
    (chunks : List UpdateFileChunk) (reps : List Replacement)
    (hok : computeReplacements originalLines filePath chunks = .ok reps) :
    reps.Sorted repLE ∧
    ((∀ c ∈ chunks, c.old_lines ≠ []) →
      reps.Pairwise (fun a b => a.start_index + a.old_length ≤ b.start_index)) := by
  unfold computeReplacements at hok
  cases haux : computeRepsAux originalLines filePath chunks 0 with
  | error e => rw [haux] at hok; cases hok
  | ok reps0 =>
    rw [haux] at hok
    cases hok
    constructor
    · exact List.sorted_insertionSort repLE reps0
    · intro hall
      obtain ⟨hmem, hpair⟩ :=
        computeRepsAux_invariant chunks originalLines filePath 0 reps0 haux hall
      have hsorted : reps0.Sorted repLE :=
        hpair.imp fun {a b} h => Nat.le_trans (Nat.le_add_right _ _) h
      rw [List.Sorted.insertionSort_eq hsorted]
      exact hpair

/-- Witness for C3: two single-line chunks on a two-line file produce
the sorted, non-overlapping list `[(0, 1, _), (1, 1, _)]`. -/
theorem claim_C3_witness :
    ([⟨0, 1, [['x']]⟩, ⟨1, 1, [['y']]⟩] : List Replacement).Sorted repLE ∧
    ([⟨0, 1, [['x']]⟩, ⟨1, 1, [['y']]⟩] : List Replacement).Pairwise
      (fun a b => a.start_index + a.old_length ≤ b.start_index) :=
  ⟨(claim_C3 [['a'], ['b']] [] [⟨[['a']], [['x']], none, false⟩, ⟨[['b']], [['y']], none, false⟩]
      [⟨0, 1, [['x']]⟩, ⟨1, 1, [['y']]⟩] (by rfl)).1,
    (claim_C3 [['a'], ['b']] [] [⟨[['a']], [['x']], none, false⟩, ⟨[['b']], [['y']], none, false⟩]
      [⟨0, 1, [['x']]⟩, ⟨1, 1, [['y']]⟩] (by rfl)).2 (by decide)⟩

/-! ### Claim C7: identity updates and the empty diff -/

/-- Splitting on newlines never yields the empty list. -/
theorem splitNl_ne_nil : ∀ s : Str, splitNl s ≠ [] := by
  intro s
  cases s with
  | nil => simp [splitNl]
  | cons c rest =>
    simp only [splitNl]
    split
    · simp
    · cases splitNl rest <;> simp [consHead]

/-- Joining after a cons onto the first chunk prepends the character. -/
theorem joinNl_cons_cons (c : Char) (h : Str) (t : List Str) :
    joinNl ((c :: h) :: t) = c :: joinNl (h :: t) := by
  cases t <;> rfl

/-- Joining the newline split reproduces the string. -/
theorem joinNl_splitNl : ∀ s : Str, joinNl (splitNl s) = s := by
  intro s
  induction s with
  | nil => rfl
  | cons c rest ih =>
    simp only [splitNl]
    by_cases hc : c = '\n'
    · rw [if_pos hc, hc]
      cases hs : splitNl rest with
      | nil => exact absurd hs (splitNl_ne_nil rest)
      | cons h t =>
        rw [hs] at ih
        show '\n' :: joinNl (h :: t) = '\n' :: rest
        rw [ih]
    · rw [if_neg hc]
      cases hs : splitNl rest with
      | nil => exact absurd hs (splitNl_ne_nil rest)
      | cons h t =>
        rw [hs] at ih
        show joinNl (consHead c (h :: t)) = c :: rest
        show joinNl ((c :: h) :: t) = c :: rest
        rw [joinNl_cons_cons, ih]

/-- Splicing back the very slice a replacement stands for leaves the
line list unchanged. -/
theorem spliceReplacement_self (lines : List Str) (s l : Nat) :
    spliceReplacement lines ⟨s, l, (lines.drop s).take l⟩ = lines := by
  unfold spliceReplacement
  dsimp only
  have h2 : List.drop (s + l) lines = List.drop l (List.drop s lines) := by
    rw [List.drop_drop, Nat.add_comm]
  rw [h2, List.append_assoc, List.take_append_drop, List.take_append_drop]

/-- Applying replacements that all stand for their own slices of the
original lines is the identity. -/
theorem applyReplacements_self (lines : List Str) :
    ∀ reps : List Replacement,
      (∀ r ∈ reps, r.new_lines = (lines.drop r.start_index).take r.old_length) →
      applyReplacements lines reps = lines := by
  intro reps
  induction reps with
  | nil => intro _; rfl
  | cons r rest ih =>
    intro hall
    show spliceReplacement (applyReplacements lines rest) r = lines
    rw [ih fun x hx => hall x (List.mem_cons_of_mem r hx)]
    have hr : r.new_lines = (lines.drop r.start_index).take r.old_length :=
      hall r (List.mem_cons_self r rest)
    calc spliceReplacement lines r
        = spliceReplacement lines ⟨r.start_index, r.old_length, r.new_lines⟩ := rfl
      _ = lines := by rw [hr]; exact spliceReplacement_self lines r.start_index r.old_length

/-- The positional diff walk never flags a change when both sides are
the same line list. -/
theorem diffFold_snd_self (l : List Str) :
    ∀ (indices : List Nat) (st : List Str × Bool),
      (indices.foldl (diffStep l l) st).2 = st.2 := by
  intro indices
  induction indices with
  | nil => intro st; rfl
  | cons i is ih =>
    intro st
    show (is.foldl (diffStep l l) (diffStep l l st i)).2 = st.2
    rw [ih (diffStep l l st i)]
    unfold diffStep
    simp only [ne_eq, not_true_eq_false, if_false]
    split <;> rfl

/-- The generated diff is the empty string whenever the new content
equals the old content. -/
theorem generateUnifiedDiff_self (s : Str) : generateUnifiedDiff s s = [] := by
  simp only [generateUnifiedDiff]
  rw [diffFold_snd_self]
  simp

/-- C7 counterexample: an identity chunk (`old_lines = new_lines =
["a"]`) on the original content `"a"` (no trailing newline) succeeds
with an empty diff, but the returned content is `"a\n"`, not the
original bytes. -/
theorem claim_C7_cex :
    deriveFromContent [] ['a'] [⟨[['a']], [['a']], none, false⟩] =
      .ok ⟨[], ['a', '\n']⟩ ∧ (['a', '\n'] : Str) ≠ (['a'] : Str) :=
  ⟨by rfl, by decide⟩

/-- C7 amended: an `Update` whose computed replacements each splice
back exactly the slice they matched (as identity chunks located by the
exact pass do) leaves the content byte-identical and yields an empty
diff, provided the original ends with a single trailing newline (its
split ends with exactly one empty element, so the popped line list
does not end empty); without a trailing newline the content gains one,
and a fuzzy (non-exact) match may rewrite the matched lines.  In
general the generated diff is the empty string whenever the new
content equals the old content. -/
theorem claim_C7 :
    (∀ (filePath originalContent : Str) (chunks : List UpdateFileChunk)
        (reps : List Replacement) (fileUpdate : FileUpdate),
        deriveFromContent filePath originalContent chunks = .ok fileUpdate →
        (splitNl originalContent).getLast? = some [] →
        (originalLinesOf originalContent = [] ∨
          (originalLinesOf originalContent).getLast? ≠ some []) →
        computeReplacements (originalLinesOf originalContent) filePath chunks = .ok reps →
        (∀ r ∈ reps, r.new_lines =
          ((originalLinesOf originalContent).drop r.start_index).take r.old_length) →
        fileUpdate.content = originalContent ∧ fileUpdate.unified_diff = []) ∧
    (∀ s : Str, generateUnifiedDiff s s = []) := by
  constructor
  · intro filePath originalContent chunks reps fileUpdate hok h1 h2 h3 h4
    simp only [deriveFromContent] at hok
    rw [h3] at hok
    dsimp only at hok
    rw [applyReplacements_self (originalLinesOf originalContent) reps h4] at hok
    rw [if_pos h2] at hok
    have hsplit : originalLinesOf originalContent ++ [[]] = splitNl originalContent := by
      unfold originalLinesOf
      rw [if_pos ⟨splitNl_ne_nil originalContent, h1⟩]
      have hgl := List.getLast?_eq_getLast (splitNl originalContent) (splitNl_ne_nil originalContent)
      rw [hgl] at h1
      have : (splitNl originalContent).getLast (splitNl_ne_nil originalContent) = [] :=
        (Option.some_injective _ h1.symm).symm
      rw [← this]
      exact List.dropLast_append_getLast (splitNl_ne_nil originalContent)
    rw [hsplit] at hok
    rw [joinNl_splitNl] at hok
    cases hok
    exact ⟨rfl, generateUnifiedDiff_self originalContent⟩
  · exact generateUnifiedDiff_self

/-- Witness for C7 at content `"foo\nbar\n"` with the identity chunk
`["bar"] -> ["bar"]`, whose replacement `(1, 1, ["bar"])` splices back
its own slice. -/
theorem claim_C7_witness :
    ((⟨[], "foo\nbar\n".toList⟩ : FileUpdate).content = "foo\nbar\n".toList ∧
      (⟨[], "foo\nbar\n".toList⟩ : FileUpdate).unified_diff = []) ∧
    generateUnifiedDiff ['q'] ['q'] = [] :=
  ⟨claim_C7.1 [] "foo\nbar\n".toList [⟨["bar".toList], ["bar".toList], none, false⟩]
      [⟨1, 1, ["bar".toList]⟩] ⟨[], "foo\nbar\n".toList⟩ (by rfl) (by decide)
      (by right; decide) (by rfl) (by decide),
    claim_C7.2 ['q']⟩

/-! ### Claim C2: the four-pass structure of the locator

The specification-side reading of the claim is written with explicit
offset lists and option combinators rather than `-1` sentinels, and is
proved equal to the implementation. -/

/-- All integer offsets from `lo` to `hi` inclusive (empty when
`hi < lo`). -/
def intRange (lo hi : Int) : List Int :=
  (List.range (hi + 1 - lo).toNat).map fun (k : Nat) => lo + (k : Int)

/-- One pass as the claim words it: when `eof` is set, first the
single offset `len(lines) - len(pattern)` provided it is at least the
start index; only on failure the forward scan over the offsets from
the start index to `len(lines) - len(pattern)` inclusive, first full
match wins. -/
def specPassResult (cmp : Str → Str → Bool) (lines pattern : List Str)
    (startIndex : Nat) (eof : Bool) : Option Int :=
  if eof ∧ (startIndex : Int) ≤ (lines.length : Int) - (pattern.length : Int) ∧
      matchesAt cmp lines pattern
        ((lines.length : Int) - (pattern.length : Int)).toNat then
    some ((lines.length : Int) - (pattern.length : Int))
  else
    (intRange (startIndex : Int) ((lines.length : Int) - (pattern.length : Int))).find?
      fun off => matchesAt cmp lines pattern off.toNat

/-- The locator as the claim words it: exactly the four passes, in
order; the first pass producing any match wins; `-1` exactly when all
four fail. -/
def seekSequenceSpec (lines pattern : List Str) (startIndex : Nat) (eof : Bool) : Int :=
  if pattern = [] then -1
  else
    match [cmpExact, cmpRstrip, cmpStrip, cmpNorm].findSome?
        (fun cmp => specPassResult cmp lines pattern startIndex eof) with
    | some v => v
    | none => -1

/-- The forward scan agrees with the claim's offset-list reading. -/
theorem intRange_find_eq_scan (cmp : Str → Str → Bool) (lines pattern : List Str)
    (startIndex : Nat) :
    (intRange (startIndex : Int) ((lines.length : Int) - (pattern.length : Int))).find?
        (fun off => matchesAt cmp lines pattern off.toNat) =
      if tryMatchScan cmp lines pattern startIndex = -1 then none
      else some (tryMatchScan cmp lines pattern startIndex) := by
  unfold tryMatchScan intRange
  have hn : ((lines.length : Int) - (pattern.length : Int) + 1 - (startIndex : Int)).toNat =
      (lines.length + 1 - pattern.length) - startIndex := by omega
  rw [hn, List.find?_map]
  have hpred : ((fun off : Int => matchesAt cmp lines pattern off.toNat) ∘
      fun k : Nat => (startIndex : Int) + k) =
      fun k : Nat => matchesAt cmp lines pattern (startIndex + k) := by
    funext k
    show matchesAt cmp lines pattern ((startIndex : Int) + k).toNat =
      matchesAt cmp lines pattern (startIndex + k)
    congr 1
  rw [hpred]
  cases hf : (List.range ((lines.length + 1 - pattern.length) - startIndex)).find?
      (fun k => matchesAt cmp lines pattern (startIndex + k)) with
  | none => rfl
  | some k =>
    have hne : ((startIndex + k : Nat) : Int) ≠ -1 := by omega
    rw [Option.map_some']
    rw [if_neg hne]
    congr 1

/-- Characterisation of a successful end-of-file attempt. -/
theorem tryMatchEofHit_some_iff (cmp : Str → Str → Bool) (lines pattern : List Str)
    (s : Nat) (v : Int) :
    tryMatchEofHit cmp lines pattern s = some v ↔
      v = (lines.length : Int) - (pattern.length : Int) ∧ (s : Int) ≤ v ∧
        matchesAt cmp lines pattern v.toNat = true := by
  unfold tryMatchEofHit
  dsimp only
  by_cases hg : (s : Int) ≤ (lines.length : Int) - (pattern.length : Int)
  · rw [if_pos hg]
    by_cases hm : matchesAt cmp lines pattern
        ((lines.length : Int) - (pattern.length : Int)).toNat
    · rw [if_pos hm]
      constructor
      · intro h; cases h; exact ⟨rfl, hg, hm⟩
      · rintro ⟨rfl, -, -⟩; rfl
    · rw [if_neg hm]
      constructor
      · intro h; cases h
      · rintro ⟨rfl, -, hm2⟩; exact absurd hm2 hm
  · rw [if_neg hg]
    constructor
    · intro h; cases h
    · rintro ⟨rfl, hg2, -⟩; exact absurd hg2 hg

/-- One specification pass agrees with one implementation pass. -/
theorem specPassResult_eq (cmp : Str → Str → Bool) (lines pattern : List Str)
    (startIndex : Nat) (eof : Bool) :
    specPassResult cmp lines pattern startIndex eof =
      if tryMatch cmp lines pattern startIndex eof = -1 then none
      else some (tryMatch cmp lines pattern startIndex eof) := by
  cases eof with
  | false =>
    have htm : tryMatch cmp lines pattern startIndex false =
        tryMatchScan cmp lines pattern startIndex := rfl
    rw [htm]
    unfold specPassResult
    rw [if_neg (by simp)]
    exact intRange_find_eq_scan cmp lines pattern startIndex
  | true =>
    cases hhit : tryMatchEofHit cmp lines pattern startIndex with
    | some v =>
      obtain ⟨hv, hge, hm⟩ := (tryMatchEofHit_some_iff cmp lines pattern startIndex v).mp hhit
      have htm : tryMatch cmp lines pattern startIndex true = v := by
        unfold tryMatch
        rw [hhit]
        rfl
      rw [htm]
      unfold specPassResult
      rw [if_pos ⟨rfl, hv ▸ hge, hv ▸ hm⟩]
      rw [if_neg (by omega)]
      rw [hv]
    | none =>
      have htm : tryMatch cmp lines pattern startIndex true =
          tryMatchScan cmp lines pattern startIndex := by
        unfold tryMatch
        rw [hhit]
        rfl
      rw [htm]
      unfold specPassResult
      have hcond : ¬((true : Bool) = true ∧
          (startIndex : Int) ≤ (lines.length : Int) - (pattern.length : Int) ∧
          matchesAt cmp lines pattern
            ((lines.length : Int) - (pattern.length : Int)).toNat = true) := by
        rintro ⟨-, hg, hm⟩
        have hsome : tryMatchEofHit cmp lines pattern startIndex =
            some ((lines.length : Int) - (pattern.length : Int)) :=
          (tryMatchEofHit_some_iff cmp lines pattern startIndex _).mpr ⟨rfl, hg, hm⟩
        rw [hhit] at hsome
        cases hsome
      rw [if_neg hcond]
      exact intRange_find_eq_scan cmp lines pattern startIndex

/-- C2: for every line list, non-empty pattern, start index and eof
flag, the locator is exactly the four-pass algorithm of the claim:
the passes strict-equality, right-trim, full-trim and
unicode-normalised-after-strip are tried in that order and the first
pass with any match wins (so an exact match later in the file beats a
looser-pass match earlier); within a pass, when `eof` is set the
single offset `len(lines) - len(pattern)` is tried first provided it
is at least the start index, with the forward scan from the start
index to that offset inclusive (first full match) only on failure; the
result is `-1` exactly when all four passes fail. -/
theorem claim_C2 (lines pattern : List Str) (startIndex : Nat) (eof : Bool)
    (h : pattern ≠ []) :
    seekSequence lines pattern startIndex eof =
      seekSequenceSpec lines pattern startIndex eof := by
  simp only [seekSequence, seekSequenceSpec]
  rw [if_neg (by simpa using h), if_neg h]
  rw [List.findSome?_cons, specPassResult_eq]
  by_cases h1 : tryMatch cmpExact lines pattern startIndex eof = -1
  · rw [if_pos h1, if_neg (by simpa using h1)]
    dsimp only
    rw [List.findSome?_cons, specPassResult_eq]
    by_cases h2 : tryMatch cmpRstrip lines pattern startIndex eof = -1
    · rw [if_pos h2, if_neg (by simpa using h2)]
      dsimp only
      rw [List.findSome?_cons, specPassResult_eq]
      by_cases h3 : tryMatch cmpStrip lines pattern startIndex eof = -1
      · rw [if_pos h3, if_neg (by simpa using h3)]
        dsimp only
        rw [List.findSome?_cons, specPassResult_eq]
        by_cases h4 : tryMatch cmpNorm lines pattern startIndex eof = -1
        · rw [if_pos h4, h4]
          rfl
        · rw [if_neg h4]
      · rw [if_neg h3, if_pos h3]
    · rw [if_neg h2, if_pos h2]
  · rw [if_neg h1, if_pos h1]

/-- Witness for C2 at a concrete search: the file
`["foo", "bar "]` with pattern `["bar"]` (matched by the right-trim
pass at offset 1). -/
theorem claim_C2_witness :
    seekSequence ["foo".toList, "bar ".toList] ["bar".toList] 0 false =
      seekSequenceSpec ["foo".toList, "bar ".toList] ["bar".toList] 0 false :=
  claim_C2 ["foo".toList, "bar ".toList] ["bar".toList] 0 false (by decide)

end Opencode
